import Mathlib

/- Verification of the SPN block cipher and the linear/differential key
recovery attacks implemented in src/SPNWithLinAndDiffAttacks/src/main.rs.

Conventions of the embedding:
- 16-bit words (Rust u16) are Nat values; where the source relies on the
  16-bit width, theorems carry an explicit bound below 65536, and the u16
  cast in the key schedule appears as an explicit % 65536.
- Rust slice and array indexing is List.getD with default 0 at places where
  the index is provably in range, and Option-valued lookup where the source
  can panic; a Rust panic (out-of-range index, arithmetic underflow on
  usize) is modelled as Option.none.
- Rust f32 arithmetic is modelled by an exact-rational carrier extended
  with non-finite values (see F32 below); every float operation analysed by
  a theorem in this file is exact in IEEE 754 single precision, so the
  model agrees with the source on those paths. -/

/-- The PRESENT 4-bit substitution box, source constant SBOX. -/
def SBOX : List Nat :=
  [0xC, 0x5, 0x6, 0xB, 0x9, 0x0, 0xA, 0xD,
   0x3, 0xE, 0xF, 0x8, 0x4, 0x7, 0x1, 0x2]

/-- The inverse PRESENT S-box, source constant SBOX_INV. -/
def SBOX_INV : List Nat :=
  [0x5, 0xE, 0xF, 0x8, 0xC, 0x1, 0x2, 0xD,
   0xB, 0x4, 0x6, 0x3, 0x0, 0x7, 0x9, 0xA]

/-- Apply the S-box to each nibble of a 16-bit word, source fn sbox_layer.
The source loop `for i in 0..4` with a mutable accumulator becomes a foldl
over List.range 4. -/
def sbox_layer (state : Nat) : Nat :=
  (List.range 4).foldl (fun output i =>
    output ||| ((SBOX.getD ((state >>> (i * 4)) &&& 0xF) 0) <<< (i * 4))) 0

/-- Apply the inverse S-box to each nibble, source fn sbox_inv_layer. -/
def sbox_inv_layer (state : Nat) : Nat :=
  (List.range 4).foldl (fun output i =>
    output ||| ((SBOX_INV.getD ((state >>> (i * 4)) &&& 0xF) 0) <<< (i * 4))) 0

/-- Bit permutation transposing the 4x4 bit matrix, source fn pbox: bit i
moves to position (i % 4) * 4 + i / 4. -/
def pbox (state : Nat) : Nat :=
  (List.range 16).foldl (fun output i =>
    output ||| (((state >>> i) &&& 1) <<< ((i % 4) * 4 + i / 4))) 0

/-- Masking with 0xF extracts a 4-bit chunk: the source idiom
(state >> k) & 0xF equals state / 2 ^ k % 16. -/
theorem extract_nibble (x k : Nat) : (x >>> k) &&& 15 = x / 2 ^ k % 16 := by
  rw [Nat.shiftRight_eq_div_pow]
  have h := Nat.and_pow_two_sub_one_eq_mod (x / 2 ^ k) 4
  norm_num at h
  exact h

/-- Every S-box output is a nibble. -/
theorem SBOX_getD_lt (n : Nat) : SBOX.getD n 0 < 16 := by
  by_cases h : n < 16
  · interval_cases n <;> decide
  · rw [List.getD_eq_getElem?_getD, List.getElem?_eq_none (by simp [SBOX]; omega)]
    decide

/-- Every inverse S-box output is a nibble. -/
theorem SBOX_INV_getD_lt (n : Nat) : SBOX_INV.getD n 0 < 16 := by
  by_cases h : n < 16
  · interval_cases n <;> decide
  · rw [List.getD_eq_getElem?_getD, List.getElem?_eq_none (by simp [SBOX_INV]; omega)]
    decide

/-- Disjoint bit ranges let a bitwise or act as addition. -/
theorem lor_eq_add_of_lt (a b k : Nat) (h : a < 2 ^ k) :
    a ||| b * 2 ^ k = a + b * 2 ^ k := by
  rw [Nat.lor_comm, mul_comm b (2 ^ k), ← Nat.mul_add_lt_is_or h b]
  omega

/-- Reassembling four nibbles with bitwise or is plain place-value addition. -/
theorem or_chain_eq_add {a b c d : Nat} (ha : a < 16) (hb : b < 16) (hc : c < 16)
    (_hd : d < 16) :
    a ||| b * 16 ||| c * 256 ||| d * 4096 = a + b * 16 + c * 256 + d * 4096 := by
  have e1 : a ||| b * 16 = a + b * 16 := by
    have h := lor_eq_add_of_lt a b 4 (by rw [show (2 : Nat) ^ 4 = 16 from rfl]; omega)
    rw [show (2 : Nat) ^ 4 = 16 from rfl] at h
    exact h
  have e2 : a + b * 16 ||| c * 256 = a + b * 16 + c * 256 := by
    have h := lor_eq_add_of_lt (a + b * 16) c 8
      (by rw [show (2 : Nat) ^ 8 = 256 from rfl]; omega)
    rw [show (2 : Nat) ^ 8 = 256 from rfl] at h
    exact h
  have e3 : a + b * 16 + c * 256 ||| d * 4096 = a + b * 16 + c * 256 + d * 4096 := by
    have h := lor_eq_add_of_lt (a + b * 16 + c * 256) d 12
      (by rw [show (2 : Nat) ^ 12 = 4096 from rfl]; omega)
    rw [show (2 : Nat) ^ 12 = 4096 from rfl] at h
    exact h
  rw [e1, e2, e3]

/-- The substitution layer unfolded to its four iterations. -/
theorem sbox_layer_unfold (x : Nat) :
    sbox_layer x =
      (((0 ||| (SBOX.getD ((x >>> 0) &&& 15) 0 <<< 0)) |||
        (SBOX.getD ((x >>> 4) &&& 15) 0 <<< 4)) |||
        (SBOX.getD ((x >>> 8) &&& 15) 0 <<< 8)) |||
        (SBOX.getD ((x >>> 12) &&& 15) 0 <<< 12) := rfl

/-- The inverse substitution layer unfolded to its four iterations. -/
theorem sbox_inv_layer_unfold (x : Nat) :
    sbox_inv_layer x =
      (((0 ||| (SBOX_INV.getD ((x >>> 0) &&& 15) 0 <<< 0)) |||
        (SBOX_INV.getD ((x >>> 4) &&& 15) 0 <<< 4)) |||
        (SBOX_INV.getD ((x >>> 8) &&& 15) 0 <<< 8)) |||
        (SBOX_INV.getD ((x >>> 12) &&& 15) 0 <<< 12) := rfl

/-- Arithmetic normal form of the substitution layer: the output is the
nibble-wise S-box image reassembled by place value. -/
theorem sbox_layer_nf (x : Nat) :
    sbox_layer x = SBOX.getD (x % 16) 0 + SBOX.getD (x / 16 % 16) 0 * 16 +
      SBOX.getD (x / 256 % 16) 0 * 256 + SBOX.getD (x / 4096 % 16) 0 * 4096 := by
  have h0 := SBOX_getD_lt (x % 16)
  have h1 := SBOX_getD_lt (x / 16 % 16)
  have h2 := SBOX_getD_lt (x / 256 % 16)
  have h3 := SBOX_getD_lt (x / 4096 % 16)
  rw [sbox_layer_unfold]
  rw [extract_nibble, extract_nibble, extract_nibble, extract_nibble]
  simp only [Nat.shiftLeft_eq, pow_zero, Nat.div_one, mul_one, Nat.zero_or]
  rw [show (2 : Nat) ^ 4 = 16 from rfl, show (2 : Nat) ^ 8 = 256 from rfl,
    show (2 : Nat) ^ 12 = 4096 from rfl]
  exact or_chain_eq_add h0 h1 h2 h3

/-- Arithmetic normal form of the inverse substitution layer. -/
theorem sbox_inv_layer_nf (x : Nat) :
    sbox_inv_layer x = SBOX_INV.getD (x % 16) 0 + SBOX_INV.getD (x / 16 % 16) 0 * 16 +
      SBOX_INV.getD (x / 256 % 16) 0 * 256 + SBOX_INV.getD (x / 4096 % 16) 0 * 4096 := by
  have h0 := SBOX_INV_getD_lt (x % 16)
  have h1 := SBOX_INV_getD_lt (x / 16 % 16)
  have h2 := SBOX_INV_getD_lt (x / 256 % 16)
  have h3 := SBOX_INV_getD_lt (x / 4096 % 16)
  rw [sbox_inv_layer_unfold]
  rw [extract_nibble, extract_nibble, extract_nibble, extract_nibble]
  simp only [Nat.shiftLeft_eq, pow_zero, Nat.div_one, mul_one, Nat.zero_or]
  rw [show (2 : Nat) ^ 4 = 16 from rfl, show (2 : Nat) ^ 8 = 256 from rfl,
    show (2 : Nat) ^ 12 = 4096 from rfl]
  exact or_chain_eq_add h0 h1 h2 h3

/-- The substitution layer stays inside the 16-bit range. -/
theorem sbox_layer_lt (x : Nat) : sbox_layer x < 65536 := by
  have h0 := SBOX_getD_lt (x % 16)
  have h1 := SBOX_getD_lt (x / 16 % 16)
  have h2 := SBOX_getD_lt (x / 256 % 16)
  have h3 := SBOX_getD_lt (x / 4096 % 16)
  rw [sbox_layer_nf]
  omega

/-- The inverse substitution layer stays inside the 16-bit range. -/
theorem sbox_inv_layer_lt (x : Nat) : sbox_inv_layer x < 65536 := by
  have h0 := SBOX_INV_getD_lt (x % 16)
  have h1 := SBOX_INV_getD_lt (x / 16 % 16)
  have h2 := SBOX_INV_getD_lt (x / 256 % 16)
  have h3 := SBOX_INV_getD_lt (x / 4096 % 16)
  rw [sbox_inv_layer_nf]
  omega

/-- The inverse layer undoes the substitution layer on 16-bit states. -/
theorem sbox_inv_sbox {x : Nat} (hx : x < 65536) :
    sbox_inv_layer (sbox_layer x) = x := by
  have h0 := SBOX_getD_lt (x % 16)
  have h1 := SBOX_getD_lt (x / 16 % 16)
  have h2 := SBOX_getD_lt (x / 256 % 16)
  have h3 := SBOX_getD_lt (x / 4096 % 16)
  have key : ∀ n, n < 16 → SBOX_INV.getD (SBOX.getD n 0) 0 = n := by decide
  rw [sbox_layer_nf, sbox_inv_layer_nf]
  rw [show (SBOX.getD (x % 16) 0 + SBOX.getD (x / 16 % 16) 0 * 16 +
      SBOX.getD (x / 256 % 16) 0 * 256 + SBOX.getD (x / 4096 % 16) 0 * 4096) % 16 =
      SBOX.getD (x % 16) 0 by omega]
  rw [show (SBOX.getD (x % 16) 0 + SBOX.getD (x / 16 % 16) 0 * 16 +
      SBOX.getD (x / 256 % 16) 0 * 256 + SBOX.getD (x / 4096 % 16) 0 * 4096) / 16 % 16 =
      SBOX.getD (x / 16 % 16) 0 by omega]
  rw [show (SBOX.getD (x % 16) 0 + SBOX.getD (x / 16 % 16) 0 * 16 +
      SBOX.getD (x / 256 % 16) 0 * 256 + SBOX.getD (x / 4096 % 16) 0 * 4096) / 256 % 16 =
      SBOX.getD (x / 256 % 16) 0 by omega]
  rw [show (SBOX.getD (x % 16) 0 + SBOX.getD (x / 16 % 16) 0 * 16 +
      SBOX.getD (x / 256 % 16) 0 * 256 + SBOX.getD (x / 4096 % 16) 0 * 4096) / 4096 % 16 =
      SBOX.getD (x / 4096 % 16) 0 by omega]
  rw [key _ (by omega), key _ (by omega), key _ (by omega), key _ (by omega)]
  omega

/-- The substitution layer undoes the inverse layer on 16-bit states. -/
theorem sbox_sbox_inv {x : Nat} (hx : x < 65536) :
    sbox_layer (sbox_inv_layer x) = x := by
  have h0 := SBOX_INV_getD_lt (x % 16)
  have h1 := SBOX_INV_getD_lt (x / 16 % 16)
  have h2 := SBOX_INV_getD_lt (x / 256 % 16)
  have h3 := SBOX_INV_getD_lt (x / 4096 % 16)
  have key : ∀ n, n < 16 → SBOX.getD (SBOX_INV.getD n 0) 0 = n := by decide
  rw [sbox_inv_layer_nf, sbox_layer_nf]
  rw [show (SBOX_INV.getD (x % 16) 0 + SBOX_INV.getD (x / 16 % 16) 0 * 16 +
      SBOX_INV.getD (x / 256 % 16) 0 * 256 + SBOX_INV.getD (x / 4096 % 16) 0 * 4096) % 16 =
      SBOX_INV.getD (x % 16) 0 by omega]
  rw [show (SBOX_INV.getD (x % 16) 0 + SBOX_INV.getD (x / 16 % 16) 0 * 16 +
      SBOX_INV.getD (x / 256 % 16) 0 * 256 + SBOX_INV.getD (x / 4096 % 16) 0 * 4096) / 16 % 16 =
      SBOX_INV.getD (x / 16 % 16) 0 by omega]
  rw [show (SBOX_INV.getD (x % 16) 0 + SBOX_INV.getD (x / 16 % 16) 0 * 16 +
      SBOX_INV.getD (x / 256 % 16) 0 * 256 + SBOX_INV.getD (x / 4096 % 16) 0 * 4096) / 256 % 16 =
      SBOX_INV.getD (x / 256 % 16) 0 by omega]
  rw [show (SBOX_INV.getD (x % 16) 0 + SBOX_INV.getD (x / 16 % 16) 0 * 16 +
      SBOX_INV.getD (x / 256 % 16) 0 * 256 + SBOX_INV.getD (x / 4096 % 16) 0 * 4096) / 4096 % 16 =
      SBOX_INV.getD (x / 4096 % 16) 0 by omega]
  rw [key _ (by omega), key _ (by omega), key _ (by omega), key _ (by omega)]
  omega

/-- The bit permutation unfolded to its sixteen iterations: bit i is placed
at position (i % 4) * 4 + i / 4. -/
theorem pbox_unfold (x : Nat) :
    pbox x =
      (((((((((((((((0 ||| (((x >>> 0) &&& 1) <<< 0)) |||
        (((x >>> 1) &&& 1) <<< 4)) |||
        (((x >>> 2) &&& 1) <<< 8)) |||
        (((x >>> 3) &&& 1) <<< 12)) |||
        (((x >>> 4) &&& 1) <<< 1)) |||
        (((x >>> 5) &&& 1) <<< 5)) |||
        (((x >>> 6) &&& 1) <<< 9)) |||
        (((x >>> 7) &&& 1) <<< 13)) |||
        (((x >>> 8) &&& 1) <<< 2)) |||
        (((x >>> 9) &&& 1) <<< 6)) |||
        (((x >>> 10) &&& 1) <<< 10)) |||
        (((x >>> 11) &&& 1) <<< 14)) |||
        (((x >>> 12) &&& 1) <<< 3)) |||
        (((x >>> 13) &&& 1) <<< 7)) |||
        (((x >>> 14) &&& 1) <<< 11)) |||
        (((x >>> 15) &&& 1) <<< 15) := rfl

/-- A single masked bit has only bit zero, everywhere else it reads false. -/
theorem and_one_testBit (y m : Nat) :
    (y &&& 1).testBit m = (decide (m = 0) && y.testBit 0) := by
  cases m with
  | zero =>
    rw [Nat.and_one_is_mod]
    simp only [Nat.testBit_zero, Nat.mod_mod_of_dvd y (dvd_refl 2)]
    simp
  | succ m =>
    rw [Nat.and_one_is_mod]
    have h2 : y % 2 < 2 ^ (m + 1) := by
      have := Nat.mod_lt y (show 0 < 2 by norm_num)
      have : (2 : Nat) ≤ 2 ^ (m + 1) := by
        calc (2 : Nat) = 2 ^ 1 := rfl
        _ ≤ 2 ^ (m + 1) := Nat.pow_le_pow_right (by norm_num) (by omega)
      omega
    simp [Nat.testBit_lt_two_pow h2]

/-- Reading bit j of one permutation term: it contributes exactly the source
bit i at the target position k. -/
theorem bit_term_testBit (x i k j : Nat) :
    (((x >>> i) &&& 1) <<< k).testBit j = (decide (j = k) && x.testBit i) := by
  rw [Nat.testBit_shiftLeft, and_one_testBit, Nat.testBit_shiftRight]
  by_cases h : j = k
  · subst h
    simp
  · by_cases h2 : k ≤ j
    · have h3 : ¬(j - k = 0) := by omega
      simp [h, h2, h3]
    · have h4 : ¬(j ≥ k) := h2
      simp [h, h4]

/-- Oring values below a power of two stays below it. -/
theorem lor_lt_two_pow (x y n : Nat) (hx : x < 2 ^ n) (hy : y < 2 ^ n) :
    x ||| y < 2 ^ n := by
  apply Nat.lt_pow_two_of_testBit
  intro i hi
  rw [Nat.testBit_lor,
    Nat.testBit_lt_two_pow (lt_of_lt_of_le hx (Nat.pow_le_pow_right (by norm_num) hi)),
    Nat.testBit_lt_two_pow (lt_of_lt_of_le hy (Nat.pow_le_pow_right (by norm_num) hi))]
  rfl

/-- Specialisation of the or bound to the 16-bit range. -/
theorem lor_lt_65536 {x y : Nat} (hx : x < 65536) (hy : y < 65536) :
    x ||| y < 65536 := by
  have h := lor_lt_two_pow x y 16
    (by rw [show (2 : Nat) ^ 16 = 65536 from rfl]; omega)
    (by rw [show (2 : Nat) ^ 16 = 65536 from rfl]; omega)
  rw [show (2 : Nat) ^ 16 = 65536 from rfl] at h
  exact h

/-- One permutation term is a single bit below position 16. -/
theorem bit_term_lt (y k : Nat) (hk : k < 16) : ((y &&& 1) <<< k) < 65536 := by
  rw [Nat.shiftLeft_eq, Nat.and_one_is_mod]
  have h2 : y % 2 ≤ 1 := by omega
  have h3 : (2 : Nat) ^ k ≤ 2 ^ 15 := Nat.pow_le_pow_right (by norm_num) (by omega)
  have h4 : y % 2 * 2 ^ k ≤ 1 * 2 ^ k := Nat.mul_le_mul_right _ h2
  have h5 : (2 : Nat) ^ 15 = 32768 := rfl
  omega

/-- The permuted state stays inside the 16-bit range. -/
theorem pbox_lt (x : Nat) : pbox x < 65536 := by
  rw [pbox_unfold]
  repeat' apply lor_lt_65536
  all_goals first
    | exact bit_term_lt _ _ (by norm_num)
    | norm_num

/-- Bit j of the permuted state is bit (j % 4) * 4 + j / 4 of the input, for
j inside the word: the transposition read backwards. -/
theorem pbox_testBit (x j : Nat) (hj : j < 16) :
    (pbox x).testBit j = x.testBit ((j % 4) * 4 + j / 4) := by
  interval_cases j <;>
    (simp only [pbox_unfold, Nat.testBit_lor, bit_term_testBit]; norm_num)

/-- Bits at or beyond position 16 of a 16-bit value read false. -/
theorem testBit_high {y j : Nat} (hy : y < 65536) (hj : 16 ≤ j) :
    y.testBit j = false := by
  apply Nat.testBit_lt_two_pow
  have h : (2 : Nat) ^ 16 ≤ 2 ^ j := Nat.pow_le_pow_right (by norm_num) hj
  rw [show (2 : Nat) ^ 16 = 65536 from rfl] at h
  omega

/-- The bit permutation is an involution on 16-bit states. -/
theorem pbox_pbox {x : Nat} (hx : x < 65536) : pbox (pbox x) = x := by
  apply Nat.eq_of_testBit_eq
  intro j
  by_cases hj : j < 16
  · rw [pbox_testBit _ j hj]
    have hs : (j % 4) * 4 + j / 4 < 16 := by omega
    rw [pbox_testBit _ _ hs]
    congr 1
    omega
  · push_neg at hj
    rw [testBit_high (pbox_lt (pbox x)) hj, testBit_high hx hj]

/-- A 16-bit xor stays inside the 16-bit range. -/
theorem xor_lt_65536 {a b : Nat} (ha : a < 65536) (hb : b < 65536) :
    a ^^^ b < 65536 := by
  have h := @Nat.xor_lt_two_pow a b 16
    (by rw [show (2 : Nat) ^ 16 = 65536 from rfl]; omega)
    (by rw [show (2 : Nat) ^ 16 = 65536 from rfl]; omega)
  rw [show (2 : Nat) ^ 16 = 65536 from rfl] at h
  exact h

/-- Encrypt a 16-bit block, source fn encrypt. The source indexes the
round-key slice at 0..4 and panics when the slice is shorter, modelled by
the Option bind on list lookup; the source loop `for i in 1..4` is
unrolled. -/
def encrypt (plaintext : Nat) (round_keys : List Nat) : Option Nat := do
  let state0 := plaintext ^^^ (← round_keys.get? 0)
  let state1 := pbox (sbox_layer state0) ^^^ (← round_keys.get? 1)
  let state2 := pbox (sbox_layer state1) ^^^ (← round_keys.get? 2)
  let state3 := pbox (sbox_layer state2) ^^^ (← round_keys.get? 3)
  return sbox_layer state3 ^^^ (← round_keys.get? 4)

/-- Decrypt a 16-bit block, source fn decrypt: undo the final round, then
the loop `for i in (1..4).rev()` unrolled, then the initial whitening. -/
def decrypt (ciphertext : Nat) (round_keys : List Nat) : Option Nat := do
  let state4 := sbox_inv_layer (ciphertext ^^^ (← round_keys.get? 4))
  let state3 := sbox_inv_layer (pbox (state4 ^^^ (← round_keys.get? 3)))
  let state2 := sbox_inv_layer (pbox (state3 ^^^ (← round_keys.get? 2)))
  let state1 := sbox_inv_layer (pbox (state2 ^^^ (← round_keys.get? 1)))
  return state1 ^^^ (← round_keys.get? 0)

/-- Evaluation of encrypt on any schedule with at least five entries. -/
theorem encrypt_cons (p k0 k1 k2 k3 k4 : Nat) (t : List Nat) :
    encrypt p (k0 :: k1 :: k2 :: k3 :: k4 :: t) =
      some (sbox_layer (pbox (sbox_layer (pbox (sbox_layer (pbox (sbox_layer
        (p ^^^ k0)) ^^^ k1)) ^^^ k2)) ^^^ k3) ^^^ k4) := rfl

/-- Evaluation of decrypt on any schedule with at least five entries. -/
theorem decrypt_cons (c k0 k1 k2 k3 k4 : Nat) (t : List Nat) :
    decrypt c (k0 :: k1 :: k2 :: k3 :: k4 :: t) =
      some (sbox_inv_layer (pbox (sbox_inv_layer (pbox (sbox_inv_layer (pbox
        (sbox_inv_layer (c ^^^ k4) ^^^ k3)) ^^^ k2)) ^^^ k1)) ^^^ k0) := rfl

/-- C1: for every 16-bit plaintext and every round-key schedule of exactly
five 16-bit entries, decryption inverts encryption. -/
theorem spn_decrypt_encrypt (p : Nat) (k : List Nat) (hp : p < 65536)
    (hk : k.length = 5) (hke : ∀ x ∈ k, x < 65536) :
    ∃ c, encrypt p k = some c ∧ decrypt c k = some p := by
  match k, hk with
  | [k0, k1, k2, k3, k4], _ =>
    have h0 : k0 < 65536 := hke k0 (by simp)
    have h1 : k1 < 65536 := hke k1 (by simp)
    have h2 : k2 < 65536 := hke k2 (by simp)
    have h3 : k3 < 65536 := hke k3 (by simp)
    have h4 : k4 < 65536 := hke k4 (by simp)
    have hb0 : p ^^^ k0 < 65536 := xor_lt_65536 hp h0
    have hb1 : pbox (sbox_layer (p ^^^ k0)) ^^^ k1 < 65536 :=
      xor_lt_65536 (pbox_lt _) h1
    have hb2 : pbox (sbox_layer (pbox (sbox_layer (p ^^^ k0)) ^^^ k1)) ^^^ k2 < 65536 :=
      xor_lt_65536 (pbox_lt _) h2
    have hb3 : pbox (sbox_layer (pbox (sbox_layer (pbox (sbox_layer
        (p ^^^ k0)) ^^^ k1)) ^^^ k2)) ^^^ k3 < 65536 :=
      xor_lt_65536 (pbox_lt _) h3
    refine ⟨_, encrypt_cons p k0 k1 k2 k3 k4 [], ?_⟩
    rw [decrypt_cons, Nat.xor_cancel_right, sbox_inv_sbox hb3, Nat.xor_cancel_right,
      pbox_pbox (sbox_layer_lt _), sbox_inv_sbox hb2, Nat.xor_cancel_right,
      pbox_pbox (sbox_layer_lt _), sbox_inv_sbox hb1, Nat.xor_cancel_right,
      pbox_pbox (sbox_layer_lt _), sbox_inv_sbox hb0, Nat.xor_cancel_right]

/-- Witness for C1 at a concrete plaintext and schedule. -/
theorem spn_decrypt_encrypt_witness :
    ∃ c, encrypt 43981 [1, 2, 3, 4, 5] = some c ∧
      decrypt c [1, 2, 3, 4, 5] = some 43981 :=
  spn_decrypt_encrypt 43981 [1, 2, 3, 4, 5] (by decide) (by decide) (by decide)

/-- One entry of the key-schedule map, source expression
`(master_key >> (80 - 16 * (i + 1))) as u16`. The usize subtraction
underflows when 16 * (i + 1) > 80, a Rust panic, modelled as none; the
`as u16` cast is % 65536. -/
def expand_key_entry (master_key : Nat) (i : Nat) : Option Nat :=
  if 16 * (i + 1) ≤ 80 then some ((master_key >>> (80 - 16 * (i + 1))) % 65536)
  else none

/-- Collect f 0, ..., f (n - 1) left to right, failing when any entry
fails: the source iterator chain (0..rounds).map(...).collect(). -/
def collect_range (f : Nat → Option Nat) : Nat → Option (List Nat)
  | 0 => some []
  | n + 1 =>
    match collect_range f n, f n with
    | some l, some a => some (l ++ [a])
    | _, _ => none

/-- Generate round keys from the 80-bit master key, source fn expand_key. -/
def expand_key (master_key : Nat) (rounds : Nat) : Option (List Nat) :=
  collect_range (expand_key_entry master_key) rounds

/-- A failing entry makes the whole collection fail. -/
theorem collect_range_none (f : Nat → Option Nat) (n i : Nat) (hi : i < n)
    (hf : f i = none) : collect_range f n = none := by
  induction n with
  | zero => omega
  | succ n ih =>
    by_cases h : i < n
    · rw [collect_range, ih h]
    · have he : i = n := by omega
      subst he
      rw [collect_range, hf]
      cases collect_range f i <;> rfl

/-- When every entry succeeds the collection is the list of entry values. -/
theorem collect_range_some {f : Nat → Option Nat} {g : Nat → Nat} :
    ∀ n, (∀ i, i < n → f i = some (g i)) →
      collect_range f n = some ((List.range n).map g) := by
  intro n
  induction n with
  | zero => intro _; rfl
  | succ n ih =>
    intro h
    rw [collect_range, ih (fun i hi => h i (by omega)), h n (by omega)]
    rw [List.range_succ, List.map_append]
    rfl

/-- C4: expanding the key with roundCount such that roundCount * 16 > 80
fails (the source subtraction underflows and panics) rather than silently
wrapping or truncating. -/
theorem expand_key_overflow (mk rounds : Nat) (h : rounds * 16 > 80) :
    expand_key mk rounds = none := by
  apply collect_range_none _ _ 5 (by omega)
  rfl

/-- Witness for C4 at roundCount 6. -/
theorem expand_key_overflow_witness : expand_key 1311768467294899695 6 = none :=
  expand_key_overflow 1311768467294899695 6 (by decide)

/-- C6: for a valid roundCount, entry i of the schedule is the 16-bit chunk
of the master key at bit positions 80 - 16 * (i + 1) and upward, that is the
i-th consecutive chunk from the most significant end. -/
theorem expand_key_entry_bits (mk rounds i : Nat) (_hmk : mk < 2 ^ 80)
    (hr : rounds * 16 ≤ 80) (hi : i < rounds) :
    ∃ ks, expand_key mk rounds = some ks ∧
      ks.getD i 0 = mk / 2 ^ (80 - 16 * (i + 1)) % 2 ^ 16 := by
  have hkey : ∀ j, j < rounds → expand_key_entry mk j =
      some ((mk >>> (80 - 16 * (j + 1))) % 65536) := by
    intro j hj
    rw [expand_key_entry, if_pos (by omega)]
  refine ⟨_, collect_range_some rounds hkey, ?_⟩
  rw [List.getD_eq_getElem?_getD, List.getElem?_map, List.getElem?_range hi]
  rw [Option.map_some']
  rw [Option.getD_some]
  rw [Nat.shiftRight_eq_div_pow]
  rfl

/-- Witness for C6: the demo master key, five rounds, entry zero. -/
theorem expand_key_entry_bits_witness :
    ∃ ks, expand_key 85968058271978839505040 5 = some ks ∧
      ks.getD 0 0 = 85968058271978839505040 / 2 ^ 64 % 2 ^ 16 :=
  expand_key_entry_bits 85968058271978839505040 5 0 (by norm_num) (by norm_num)
    (by norm_num)

/-- C5 counterexample: a schedule of six entries does not have length five,
yet both encrypt and decrypt produce a block result instead of failing. -/
theorem encrypt_six_keys_succeeds :
    ([0, 0, 0, 0, 0, 0] : List Nat).length ≠ 5 ∧
    (encrypt 0 [0, 0, 0, 0, 0, 0]).isSome = true ∧
    (decrypt 0 [0, 0, 0, 0, 0, 0]).isSome = true := by
  refine ⟨by decide, ?_, ?_⟩ <;> rfl

/-- C5 amended: encrypt and decrypt fail (an out-of-bounds index panic,
modelled none) exactly when the schedule has fewer than five entries; with
five or more entries both produce a block result, entries past the fifth
being ignored. -/
theorem encrypt_decrypt_some_iff (x : Nat) (ks : List Nat) :
    ((encrypt x ks).isSome ↔ 5 ≤ ks.length) ∧
    ((decrypt x ks).isSome ↔ 5 ≤ ks.length) := by
  match ks with
  | [] => constructor <;> simp [encrypt, decrypt]
  | [a] => constructor <;> simp [encrypt, decrypt]
  | [a, b] => constructor <;> simp [encrypt, decrypt]
  | [a, b, c] => constructor <;> simp [encrypt, decrypt]
  | [a, b, c, d] => constructor <;> simp [encrypt, decrypt]
  | a :: b :: c :: d :: e :: t =>
    constructor
    · rw [encrypt_cons]
      simp
    · rw [decrypt_cons]
      simp

/-- C7: the bit permutation is an involution on every 16-bit block: the
transposition of the 4x4 bit matrix undoes itself. -/
theorem pbox_involution (x : Nat) (hx : x < 65536) : pbox (pbox x) = x :=
  pbox_pbox hx

/-- Witness for C7 at a concrete block. -/
theorem pbox_involution_witness : pbox (pbox 4660) = 4660 :=
  pbox_involution 4660 (by decide)

/-- C8: the nibble-wise substitution layers are mutual inverses on the full
16-bit block domain. -/
theorem sbox_layers_mutual_inverse (x : Nat) (hx : x < 65536) :
    sbox_layer (sbox_inv_layer x) = x ∧ sbox_inv_layer (sbox_layer x) = x :=
  ⟨sbox_sbox_inv hx, sbox_inv_sbox hx⟩

/-- Witness for C8 at a concrete block. -/
theorem sbox_layers_mutual_inverse_witness :
    sbox_layer (sbox_inv_layer 43981) = 43981 ∧
    sbox_inv_layer (sbox_layer 43981) = 43981 :=
  sbox_layers_mutual_inverse 43981 (by decide)

/-- Population count helper: the first argument is fuel bounding the bit
length, making the recursion structural (hence kernel-reducible). -/
def count_ones_fuel : Nat → Nat → Nat
  | 0, _ => 0
  | fuel + 1, n => if n = 0 then 0 else n % 2 + count_ones_fuel fuel (n / 2)

/-- Population count of a natural number, source method count_ones; the
value itself bounds its own bit length, so it can serve as fuel. -/
def count_ones (n : Nat) : Nat := count_ones_fuel n n

/-- Minimal model of Rust f32 for the paths this program exercises: an exact
rational, a NaN, or an infinity. The operations below follow IEEE 754
non-finite semantics (0.0 / 0.0 is NaN, positive / 0.0 is an infinity,
NaN propagates, every comparison against NaN is false); rounding of inexact
finite results is not modelled, and no theorem below depends on an inexact
operation. The sign of an infinity is not tracked: no analysed path
produces one. -/
inductive F32 where
  | nan : F32
  | inf : F32
  | val : ℚ → F32

/-- Source operator `/` on f32. -/
def F32.div : F32 → F32 → F32
  | val a, val b => if b = 0 then (if a = 0 then nan else inf) else val (a / b)
  | nan, _ => nan
  | _, nan => nan
  | inf, inf => nan
  | inf, val _ => inf
  | val _, inf => val 0

/-- Source operator `-` on f32. -/
def F32.sub : F32 → F32 → F32
  | val a, val b => val (a - b)
  | nan, _ => nan
  | _, nan => nan
  | inf, _ => inf
  | val _, inf => inf

/-- Source method f32::abs. -/
def F32.abs : F32 → F32
  | val a => val (if a < 0 then -a else a)
  | nan => nan
  | inf => inf

/-- Source operator `>` on f32: false whenever NaN is involved. -/
def F32.gt : F32 → F32 → Bool
  | val a, val b => decide (b < a)
  | nan, _ => false
  | _, nan => false
  | inf, val _ => true
  | val _, inf => false
  | inf, inf => false

/-- Number of pairs for which the linear approximation holds under a given
candidate key nibble: the counter cell counts[candidate] of source fn
linear_attack, with the per-pair increments of the source loop re-expressed
as one count over the pair list (the increments are additive and
independent, so the loop interchange preserves each final counter). -/
def lin_count (pairs : List (Nat × Nat)) (alpha beta_nibble nibble_idx candidate : Nat) :
    Nat :=
  pairs.countP (fun pc =>
    let alpha_dot := count_ones (alpha &&& pc.1) % 2
    let cipher_nibble := (pc.2 >>> (4 * nibble_idx)) &&& 0xF
    let v := SBOX_INV.getD (cipher_nibble ^^^ candidate) 0
    let beta_dot := count_ones (beta_nibble &&& v) % 2
    (alpha_dot + beta_dot) % 2 == 0)

/-- Recover one nibble of the last round key by linear cryptanalysis, source
fn linear_attack. The final scan keeps (best_bias, best_candidate) starting
from (-1.0, 0) and replaces on strictly greater bias, exactly as the
source; the bias is |count / total - 0.5| in the F32 model. -/
def linear_attack (pairs : List (Nat × Nat)) (alpha beta : Nat) (nibble_idx : Nat) :
    Nat :=
  let beta_nibble := (beta >>> (4 * nibble_idx)) &&& 0xF
  let counts := (List.range 16).map (lin_count pairs alpha beta_nibble nibble_idx)
  let total : F32 := F32.val (pairs.length : ℚ)
  (counts.enum.foldl (fun best p =>
    let bias := F32.abs (F32.sub (F32.div (F32.val (p.2 : ℚ)) total) (F32.val (1 / 2)))
    if F32.gt bias best.1 then (bias, p.1) else best)
    (F32.val (-1), 0)).2

/-- Number of surviving quadruples whose decrypted nibble difference matches
the expected one under a given candidate: the counter cell
counts[candidate] of source fn differential_attack, with the right-pair
filter `continue` as a List.filter and the per-quadruple increments
re-expressed as one count. -/
def diff_count (pairs : List (Nat × Nat × Nat × Nat))
    (delta_p delta_u nibble_idx candidate : Nat) : Nat :=
  (pairs.filter (fun q => q.1 ^^^ q.2.1 == delta_p)).countP (fun q =>
    let delta_u_nibble := (delta_u >>> (4 * nibble_idx)) &&& 0xF
    let c1_nib := (q.2.2.1 >>> (4 * nibble_idx)) &&& 0xF
    let c2_nib := (q.2.2.2 >>> (4 * nibble_idx)) &&& 0xF
    let v1 := SBOX_INV.getD (c1_nib ^^^ candidate) 0
    let v2 := SBOX_INV.getD (c2_nib ^^^ candidate) 0
    v1 ^^^ v2 == delta_u_nibble)

/-- The scan of Rust Iterator::max_by_key over indexed counters: when
several elements share the maximal key the LAST one is returned, so a later
element replaces the current best exactly when its key is at least as
large. -/
def max_by_key_last (l : List (Nat × Nat)) : Option (Nat × Nat) :=
  l.foldl (fun acc p =>
    match acc with
    | none => some p
    | some q => if q.2 ≤ p.2 then some p else some q) none

/-- Recover one nibble of the last round key by differential cryptanalysis,
source fn differential_attack; the final `.unwrap()` stays in Option. -/
def differential_attack (pairs : List (Nat × Nat × Nat × Nat))
    (delta_p delta_u nibble_idx : Nat) : Option Nat :=
  let counts := (List.range 16).map (diff_count pairs delta_p delta_u nibble_idx)
  (max_by_key_last counts.enum).map (fun p => p.1)

set_option maxHeartbeats 2000000 in
/-- C2 counterexample: on the empty pair collection neither attack fails;
linear_attack returns nibble 0 and differential_attack returns nibble 15. -/
theorem empty_attack_counterexample :
    linear_attack [] 0 0 0 = 0 ∧ differential_attack [] 0 0 0 = some 15 := by
  constructor <;> rfl

set_option maxHeartbeats 2000000 in
/-- C2 amended: the attacks signal nothing on an empty pair collection: for
every mask pair and nibble index, linear_attack returns candidate 0 (each
deviation is NaN because of the 0.0 / 0.0 division, NaN comparisons are
false, and the initial best candidate 0 survives) and differential_attack
returns candidate 15 (all sixteen counters are 0 and the last maximal
index wins). -/
theorem empty_attack_behavior (alpha beta dp du idx jdx : Nat) :
    linear_attack [] alpha beta idx = 0 ∧
    differential_attack [] dp du jdx = some 15 := by
  constructor <;> rfl

/-- Appending one indexed counter updates the scan result by one step. -/
theorem max_by_key_last_append (l : List (Nat × Nat)) (x : Nat × Nat) :
    max_by_key_last (l ++ [x]) =
      match max_by_key_last l with
      | none => some x
      | some q => if q.2 ≤ x.2 then some x else some q := by
  rw [max_by_key_last, max_by_key_last, List.foldl_append]
  rfl

/-- The Rust max_by_key scan over enumerated counters returns the value of a
maximal counter together with the LAST index attaining it. -/
theorem max_by_key_last_spec (cs : List Nat) (h : cs ≠ []) :
    ∃ i v, max_by_key_last cs.enum = some (i, v) ∧ i < cs.length ∧
      cs.getD i 0 = v ∧
      (∀ j, j < cs.length → cs.getD j 0 ≤ v) ∧
      (∀ j, j < cs.length → cs.getD j 0 = v → j ≤ i) := by
  induction cs using List.reverseRecOn with
  | nil => exact absurd rfl h
  | append_singleton l c ih =>
    rw [List.enum_append]
    by_cases hl : l = []
    · subst hl
      refine ⟨0, c, rfl, by simp, by simp, ?_, ?_⟩
      · intro j hj
        simp at hj
        subst hj
        simp
      · intro j hj _
        simp at hj
        omega
    · obtain ⟨i, v, hmax, hlen, hget, hub, hties⟩ := ih hl
      have henum : List.enumFrom l.length [c] = [(l.length, c)] := rfl
      rw [henum]
      have happ := max_by_key_last_append l.enum (l.length, c)
      rw [hmax] at happ
      have happ2 : max_by_key_last (l.enum ++ [(l.length, c)]) =
          if v ≤ c then some (l.length, c) else some (i, v) := by
        rw [happ]
      by_cases hvc : v ≤ c
      · rw [happ2, if_pos hvc]
        refine ⟨l.length, c, rfl, by simp, ?_, ?_, ?_⟩
        · rw [List.getD_eq_getElem?_getD, List.getElem?_concat_length]
          rfl
        · intro j hj
          simp at hj
          by_cases hjl : j < l.length
          · rw [List.getD_eq_getElem?_getD, List.getElem?_append_left hjl,
              ← List.getD_eq_getElem?_getD]
            exact le_trans (hub j hjl) hvc
          · have : j = l.length := by omega
            subst this
            rw [List.getD_eq_getElem?_getD, List.getElem?_concat_length]
            exact le_refl c
        · intro j hj _
          simp at hj
          omega
      · rw [happ2, if_neg hvc]
        push_neg at hvc
        refine ⟨i, v, rfl, by simp; omega, ?_, ?_, ?_⟩
        · rw [List.getD_eq_getElem?_getD, List.getElem?_append_left hlen,
            ← List.getD_eq_getElem?_getD]
          exact hget
        · intro j hj
          simp at hj
          by_cases hjl : j < l.length
          · rw [List.getD_eq_getElem?_getD, List.getElem?_append_left hjl,
              ← List.getD_eq_getElem?_getD]
            exact hub j hjl
          · have : j = l.length := by omega
            subst this
            rw [List.getD_eq_getElem?_getD, List.getElem?_concat_length]
            exact le_of_lt hvc
        · intro j hj hje
          simp at hj
          by_cases hjl : j < l.length
          · rw [List.getD_eq_getElem?_getD, List.getElem?_append_left hjl,
              ← List.getD_eq_getElem?_getD] at hje
            exact hties j hjl hje
          · have hjeq : j = l.length := by omega
            subst hjeq
            rw [List.getD_eq_getElem?_getD, List.getElem?_concat_length] at hje
            simp at hje
            omega

/-- C3 counterexample: with one surviving right pair and a zero expected
difference all sixteen counters tie at one; the claim then demands the
lowest candidate 0, but the code returns 15. -/
theorem diff_attack_tie_counterexample :
    differential_attack [(0, 0, 0, 0)] 0 0 0 = some 15 ∧
    diff_count [(0, 0, 0, 0)] 0 0 0 0 = diff_count [(0, 0, 0, 0)] 0 0 0 15 := by
  constructor <;> rfl

/-- C3 amended: on any collection with at least one surviving right pair,
differential_attack returns a candidate whose counter is maximal, and when
several candidates share the maximal counter it returns the HIGHEST such
candidate index (Rust max_by_key keeps the last maximum), not the lowest. -/
theorem diff_attack_argmax (pairs : List (Nat × Nat × Nat × Nat))
    (dp du idx : Nat) (_hsurv : ∃ q ∈ pairs, q.1 ^^^ q.2.1 = dp) :
    ∃ c, differential_attack pairs dp du idx = some c ∧ c < 16 ∧
      (∀ j, j < 16 → diff_count pairs dp du idx j ≤ diff_count pairs dp du idx c) ∧
      (∀ j, j < 16 → diff_count pairs dp du idx j = diff_count pairs dp du idx c →
        j ≤ c) := by
  obtain ⟨i, v, hmax, hlen, hget, hub, hties⟩ :=
    max_by_key_last_spec ((List.range 16).map (diff_count pairs dp du idx)) (by simp)
  have hcslen : ((List.range 16).map (diff_count pairs dp du idx)).length = 16 := by
    simp
  have hg : ∀ j, j < 16 →
      ((List.range 16).map (diff_count pairs dp du idx)).getD j 0 =
        diff_count pairs dp du idx j := by
    intro j hj
    rw [List.getD_eq_getElem?_getD, List.getElem?_map, List.getElem?_range hj]
    rfl
  rw [hcslen] at hlen hub hties
  rw [hg i hlen] at hget
  refine ⟨i, ?_, hlen, ?_, ?_⟩
  · show (max_by_key_last ((List.range 16).map
      (diff_count pairs dp du idx)).enum).map (fun p => p.1) = some i
    rw [hmax]
    rfl
  · intro j hj
    have := hub j hj
    rw [hg j hj] at this
    omega
  · intro j hj hje
    apply hties j hj
    rw [hg j hj, hje, hget]

/-- Witness for C3 at a concrete surviving pair collection. -/
theorem diff_attack_argmax_witness :
    ∃ c, differential_attack [(1, 3, 5, 9)] 2 4 0 = some c ∧ c < 16 ∧
      (∀ j, j < 16 → diff_count [(1, 3, 5, 9)] 2 4 0 j ≤
        diff_count [(1, 3, 5, 9)] 2 4 0 c) ∧
      (∀ j, j < 16 → diff_count [(1, 3, 5, 9)] 2 4 0 j =
        diff_count [(1, 3, 5, 9)] 2 4 0 c → j ≤ c) :=
  diff_attack_argmax [(1, 3, 5, 9)] 2 4 0 ⟨(1, 3, 5, 9), by simp, by decide⟩

/-- Number of inputs on which the two mask parities agree: the counter of
source fn linear_bias_sbox. -/
def lin_match_count (a b : Nat) : Nat :=
  (List.range 16).countP (fun x =>
    count_ones (a &&& x) % 2 == count_ones (b &&& SBOX.getD x 0) % 2)

/-- Bias of a linear approximation of the S-box, source fn linear_bias_sbox:
matches / 16.0 - 0.5. Every value reachable here is a multiple of 1 / 16,
hence exact in f32, so the rational model is exact. -/
def linear_bias_sbox (a b : Nat) : ℚ :=
  (lin_match_count a b : ℚ) / 16 - 1 / 2

/-- Source method f32::abs on a finite value. -/
def rat_abs (q : ℚ) : ℚ := if q < 0 then -q else q

/-- Exhaustive best-linear-approximation search, source fn
find_best_linear_approximation: input masks 1..15 ascending, output masks
1..15 ascending, strict improvement over a running best starting at -1.0. -/
def find_best_linear_approximation : Nat × Nat × ℚ :=
  let scan := (List.range' 1 15).foldl (fun acc input_mask =>
    (List.range' 1 15).foldl (fun acc2 output_mask =>
      let bias := rat_abs (linear_bias_sbox input_mask output_mask)
      if acc2.1 < bias then (bias, input_mask, output_mask) else acc2) acc)
    ((-1 : ℚ), 0, 0)
  (scan.2.1, scan.2.2, scan.1)

/-- Probability of an S-box differential, source fn diff_prob_sbox:
count / 16.0, again exact in f32. The source indexes SBOX with
x ^ delta_in, in range for the 4-bit differences the analysis scans. -/
def diff_prob_sbox (delta_in delta_out : Nat) : ℚ :=
  ((List.range 16).countP (fun x =>
    SBOX.getD x 0 ^^^ SBOX.getD (x ^^^ delta_in) 0 == delta_out) : ℚ) / 16

/-- Distance of a match count from the balanced count 8, in Nat. -/
def dist8 (c : Nat) : Nat := if c < 8 then 8 - c else c - 8

/-- The scanned mask pairs in source order: input ascending, then output. -/
def lin_mask_pairs : List (Nat × Nat) :=
  (List.range' 1 15).flatMap (fun a => (List.range' 1 15).map (fun b => (a, b)))

/-- The key function of the best-approximation scan. -/
def lin_key (p : Nat × Nat) : ℚ := rat_abs (linear_bias_sbox p.1 p.2)

/-- One step of the best-approximation scan, parametric in the key. -/
def best_scan_step (k : Nat × Nat → ℚ) (acc : ℚ × Nat × Nat) (p : Nat × Nat) :
    ℚ × Nat × Nat :=
  if acc.1 < k p then (k p, p.1, p.2) else acc

/-- A nested fold over two index lists is the fold over their product. -/
theorem foldl_nested_flat {α : Type} (outer inner : List Nat)
    (g : α → Nat × Nat → α) (a : α) :
    outer.foldl (fun acc i => inner.foldl (fun acc2 j => g acc2 (i, j)) acc) a =
      (outer.flatMap (fun i => inner.map (fun j => (i, j)))).foldl g a := by
  induction outer generalizing a with
  | nil => rfl
  | cons i os ih =>
    rw [List.foldl_cons, ih, List.flatMap_cons, List.foldl_append, List.foldl_map]

/-- While every key stays below m, the running best stays below m. -/
theorem foldl_lt_of_all_lt (k : Nat × Nat → ℚ) (m : ℚ) :
    ∀ (L : List (Nat × Nat)) (acc : ℚ × Nat × Nat), acc.1 < m →
      (∀ p ∈ L, k p < m) → (L.foldl (best_scan_step k) acc).1 < m := by
  intro L
  induction L with
  | nil => intro acc hacc _; exact hacc
  | cons p ps ih =>
    intro acc hacc hall
    rw [List.foldl_cons]
    apply ih
    · rw [best_scan_step]
      by_cases hcase : acc.1 < k p
      · rw [if_pos hcase]
        exact hall p (by simp)
      · rw [if_neg hcase]
        exact hacc
    · intro q hq
      exact hall q (by simp [hq])

/-- Once the best reaches the overall maximum, no later element replaces
it: strict improvement never fires again. -/
theorem foldl_const_of_all_le (k : Nat × Nat → ℚ) :
    ∀ (L : List (Nat × Nat)) (acc : ℚ × Nat × Nat),
      (∀ p ∈ L, k p ≤ acc.1) → L.foldl (best_scan_step k) acc = acc := by
  intro L
  induction L with
  | nil => intro acc _; rfl
  | cons p ps ih =>
    intro acc hall
    rw [List.foldl_cons, best_scan_step,
      if_neg (not_lt_of_le (hall p (by simp)))]
    exact ih acc (fun q hq => hall q (by simp [hq]))

/-- The scan with strict improvement returns the FIRST element attaining
the maximal key, together with that key. -/
theorem fold_first_argmax (k : Nat × Nat → ℚ) (pre suf : List (Nat × Nat))
    (w : Nat × Nat) (m : ℚ) (hw : k w = m) (hpre : ∀ p ∈ pre, k p < m)
    (hsuf : ∀ p ∈ suf, k p ≤ m) (hm : (-1 : ℚ) < m) :
    (pre ++ w :: suf).foldl (best_scan_step k) ((-1 : ℚ), 0, 0) = (m, w.1, w.2) := by
  rw [List.foldl_append, List.foldl_cons]
  have h1 : (pre.foldl (best_scan_step k) ((-1 : ℚ), 0, 0)).1 < m :=
    foldl_lt_of_all_lt k m pre ((-1 : ℚ), 0, 0) hm hpre
  have h2 : best_scan_step k (pre.foldl (best_scan_step k) ((-1 : ℚ), 0, 0)) w =
      (m, w.1, w.2) := by
    rw [best_scan_step, hw, if_pos h1]
  rw [h2]
  exact foldl_const_of_all_le k suf (m, w.1, w.2) (fun p hp => hsuf p hp)

/-- The magnitude of a bias is the count distance from 8, scaled by 16. -/
theorem lin_bias_abs_eq (a b : Nat) :
    rat_abs (linear_bias_sbox a b) = (dist8 (lin_match_count a b) : ℚ) / 16 := by
  rw [linear_bias_sbox, rat_abs, dist8]
  by_cases h : lin_match_count a b < 8
  · have hq : ((lin_match_count a b : ℚ) / 16 - 1 / 2) < 0 := by
      have hc : (lin_match_count a b : ℚ) < 8 := by exact_mod_cast h
      linarith
    rw [if_pos hq, if_pos h]
    have hcast : ((8 - lin_match_count a b : Nat) : ℚ) = 8 - (lin_match_count a b : ℚ) :=
      Nat.cast_sub (by omega)
    rw [hcast]
    ring
  · have hq : ¬(((lin_match_count a b : ℚ) / 16 - 1 / 2) < 0) := by
      have hc : (8 : ℚ) ≤ (lin_match_count a b : ℚ) := by exact_mod_cast (by omega : 8 ≤ lin_match_count a b)
      push_neg
      linarith
    rw [if_neg hq, if_neg h]
    have hcast : ((lin_match_count a b - 8 : Nat) : ℚ) = (lin_match_count a b : ℚ) - 8 :=
      Nat.cast_sub (by omega)
    rw [hcast]
    ring

/-- Scaled comparison against one quarter, non-strict. -/
theorem div16_le_quarter (d : Nat) : ((d : ℚ) / 16 ≤ 1 / 4) ↔ d ≤ 4 := by
  rw [div_le_div_iff₀ (by norm_num : (0 : ℚ) < 16) (by norm_num : (0 : ℚ) < 4), one_mul]
  constructor
  · intro h
    have h2 : (d : ℚ) ≤ 4 := by linarith
    exact_mod_cast h2
  · intro h
    have h2 : (d : ℚ) ≤ 4 := by exact_mod_cast h
    linarith

/-- Scaled comparison against one quarter, strict. -/
theorem div16_lt_quarter (d : Nat) : ((d : ℚ) / 16 < 1 / 4) ↔ d < 4 := by
  rw [div_lt_div_iff₀ (by norm_num : (0 : ℚ) < 16) (by norm_num : (0 : ℚ) < 4), one_mul]
  constructor
  · intro h
    have h2 : (d : ℚ) < 4 := by linarith
    exact_mod_cast h2
  · intro h
    have h2 : (d : ℚ) < 4 := by exact_mod_cast h
    linarith

/-- Every nonzero mask pair has count distance at most 4 from balance. -/
theorem lin_match_count_bound :
    ∀ a, a < 16 → 1 ≤ a → ∀ b, b < 16 → 1 ≤ b →
      dist8 (lin_match_count a b) ≤ 4 := by decide

/-- The four pairs scanned before (1, 5) are strictly below the maximum. -/
theorem lin_match_count_pre :
    ∀ b, b < 5 → 1 ≤ b → dist8 (lin_match_count 1 b) < 4 := by decide

/-- Every scanned pair consists of two nonzero 4-bit masks. -/
theorem lin_mask_pairs_mem {p : Nat × Nat} (hp : p ∈ lin_mask_pairs) :
    1 ≤ p.1 ∧ p.1 < 16 ∧ 1 ≤ p.2 ∧ p.2 < 16 := by
  rw [lin_mask_pairs] at hp
  simp only [List.mem_flatMap, List.mem_map, List.mem_range'_1] at hp
  obtain ⟨a, ⟨ha1, ha2⟩, b, ⟨hb1, hb2⟩, rfl⟩ := hp
  exact ⟨ha1, by omega, hb1, by omega⟩

/-- The nested source scan equals a flat scan over the product list. -/
theorem nested_scan_eq :
    (List.range' 1 15).foldl (fun acc input_mask =>
      (List.range' 1 15).foldl (fun acc2 output_mask =>
        let bias := rat_abs (linear_bias_sbox input_mask output_mask)
        if acc2.1 < bias then (bias, input_mask, output_mask) else acc2) acc)
      ((-1 : ℚ), 0, 0) =
    lin_mask_pairs.foldl (best_scan_step lin_key) ((-1 : ℚ), 0, 0) := by
  rw [lin_mask_pairs, ← foldl_nested_flat]
  rfl

/-- The flat scan stops improving at (1, 5) with bias magnitude 1 / 4. -/
theorem lin_scan_result :
    lin_mask_pairs.foldl (best_scan_step lin_key) ((-1 : ℚ), 0, 0) = (1 / 4, 1, 5) := by
  have hsplit : lin_mask_pairs =
      lin_mask_pairs.take 4 ++ (1, 5) :: lin_mask_pairs.drop 5 := by rfl
  have htake : lin_mask_pairs.take 4 = [(1, 1), (1, 2), (1, 3), (1, 4)] := by rfl
  have hw : lin_key (1, 5) = 1 / 4 := by
    rw [lin_key, lin_bias_abs_eq, show lin_match_count 1 5 = 4 from by decide,
      show dist8 4 = 4 from rfl]
    norm_num
  have hpre : ∀ p ∈ lin_mask_pairs.take 4, lin_key p < 1 / 4 := by
    intro p hp
    rw [htake] at hp
    rw [lin_key, lin_bias_abs_eq, div16_lt_quarter]
    fin_cases hp <;> exact lin_match_count_pre _ (by norm_num) (by norm_num)
  have hsuf : ∀ p ∈ lin_mask_pairs.drop 5, lin_key p ≤ 1 / 4 := by
    intro p hp
    have hmem : p ∈ lin_mask_pairs := by
      rw [hsplit]
      simp only [List.mem_append, List.mem_cons]
      right; right; exact hp
    obtain ⟨h1, h2, h3, h4⟩ := lin_mask_pairs_mem hmem
    rw [lin_key, lin_bias_abs_eq, div16_le_quarter]
    exact lin_match_count_bound p.1 h2 h1 p.2 h4 h3
  calc lin_mask_pairs.foldl (best_scan_step lin_key) ((-1 : ℚ), 0, 0)
      = (lin_mask_pairs.take 4 ++ (1, 5) :: lin_mask_pairs.drop 5).foldl
          (best_scan_step lin_key) ((-1 : ℚ), 0, 0) := by rw [← hsplit]
    _ = (1 / 4, 1, 5) :=
        fold_first_argmax lin_key _ _ (1, 5) (1 / 4) hw hpre hsuf (by norm_num)

/-- C9: the exhaustive scan over input masks 1..15 and output masks 1..15 in
ascending order with a first-strictly-greater tie-break returns the pair
(1, 5) with bias magnitude 1 / 4; that magnitude satisfies 0 < |bias| and
|bias| <= 1/2 (the winning match count 4 differs from 8); the bias magnitude
of every scanned pair is at most 1 / 4; and every pair scanned strictly
before (1, 5) has bias magnitude strictly below 1 / 4, so (1, 5) is the
first maximiser in scan order. Determinism across calls is immediate: the
embedding is a pure function of no arguments. -/
theorem best_linear_approximation_props :
    find_best_linear_approximation = (1, 5, 1 / 4) ∧
    (0 < (1 / 4 : ℚ) ∧ (1 / 4 : ℚ) ≤ 1 / 2) ∧
    (∀ a b, 1 ≤ a → a < 16 → 1 ≤ b → b < 16 →
      rat_abs (linear_bias_sbox a b) ≤ 1 / 4) ∧
    (∀ b, 1 ≤ b → b < 5 → rat_abs (linear_bias_sbox 1 b) < 1 / 4) := by
  refine ⟨?_, by norm_num, ?_, ?_⟩
  · have h1 : (List.range' 1 15).foldl (fun acc input_mask =>
        (List.range' 1 15).foldl (fun acc2 output_mask =>
          let bias := rat_abs (linear_bias_sbox input_mask output_mask)
          if acc2.1 < bias then (bias, input_mask, output_mask) else acc2) acc)
        ((-1 : ℚ), 0, 0) = (1 / 4, 1, 5) := by
      rw [nested_scan_eq, lin_scan_result]
    exact congrArg (fun s => (s.2.1, s.2.2, s.1)) h1
  · intro a b ha ha' hb hb'
    rw [lin_bias_abs_eq, div16_le_quarter]
    exact lin_match_count_bound a ha' ha b hb' hb
  · intro b hb hb'
    rw [lin_bias_abs_eq, div16_lt_quarter]
    exact lin_match_count_pre b hb' hb

/-- C10: because the S-box is a bijection, no nonzero input difference ever
produces the zero output difference: diff_prob_sbox d 0 = 0 for every 4-bit
d different from 0, that is no input x has sbox(x) = sbox(x xor d). -/
theorem diff_prob_zero_out (d : Nat) (hd : d < 16) (hnz : d ≠ 0) :
    diff_prob_sbox d 0 = 0 := by
  have hcount : (List.range 16).countP (fun x =>
      SBOX.getD x 0 ^^^ SBOX.getD (x ^^^ d) 0 == 0) = 0 := by
    revert hnz
    interval_cases d <;> intro hnz
    · exact absurd rfl hnz
    all_goals decide
  rw [diff_prob_sbox, hcount]
  norm_num

/-- Witness for C10 at difference 5. -/
theorem diff_prob_zero_out_witness : diff_prob_sbox 5 0 = 0 :=
  diff_prob_zero_out 5 (by decide) (by decide)
